import Mathlib

/-!
Verification of the queue-mediated multiplexing pipeline
(`genqueue.py`, `genmultiplex.py`, `consthread.py`).

The pipeline moves values through a thread-safe FIFO queue
(`Queue.Queue`).  A queue entry is either an ordinary item or the
`StopIteration` class object, which the code enqueues as the
end-of-stream sentinel.  We model the stream of entries that pass
through a queue as a `List (Entry α)` in FIFO order: producers append
at the tail, the consumer reads from the head.
-/

variable {α β : Type}

/-- A queue entry: either a data item or the `StopIteration` class
object used as end-of-stream sentinel (`genqueue.py` enqueues the class
object itself as an ordinary queue item). -/
inductive Entry (α : Type) : Type
  | val : α → Entry α
  | sentinel : Entry α
  deriving DecidableEq, Repr

namespace Entry

/-- The data items of a list of entries, in order. -/
def valsOf (q : List (Entry α)) : List α :=
  q.filterMap fun e => match e with | Entry.val a => some a | Entry.sentinel => none

/-- How many sentinels a list of entries contains. -/
def sentCount (q : List (Entry α)) : Nat :=
  q.countP fun e => match e with | Entry.sentinel => true | Entry.val _ => false

@[simp] theorem valsOf_nil : valsOf ([] : List (Entry α)) = [] := rfl

@[simp] theorem valsOf_cons_val (a : α) (q : List (Entry α)) :
    valsOf (Entry.val a :: q) = a :: valsOf q := rfl

@[simp] theorem valsOf_cons_sentinel (q : List (Entry α)) :
    valsOf (Entry.sentinel :: q) = valsOf q := rfl

@[simp] theorem valsOf_append (q r : List (Entry α)) :
    valsOf (q ++ r) = valsOf q ++ valsOf r := by
  simp [valsOf, List.filterMap_append]

@[simp] theorem valsOf_map_val (l : List α) :
    valsOf (l.map Entry.val) = l := by
  induction l with
  | nil => rfl
  | cons a t ih => simp [ih]

@[simp] theorem sentCount_nil : sentCount ([] : List (Entry α)) = 0 := rfl

@[simp] theorem sentCount_cons_val (a : α) (q : List (Entry α)) :
    sentCount (Entry.val a :: q) = sentCount q := by
  simp [sentCount, List.countP_cons]

@[simp] theorem sentCount_cons_sentinel (q : List (Entry α)) :
    sentCount (Entry.sentinel :: q) = sentCount q + 1 := by
  simp [sentCount, List.countP_cons]

@[simp] theorem sentCount_append (q r : List (Entry α)) :
    sentCount (q ++ r) = sentCount q + sentCount r := by
  simp [sentCount, List.countP_append]

@[simp] theorem sentCount_map_val (l : List α) :
    sentCount (l.map Entry.val) = 0 := by
  induction l with
  | nil => rfl
  | cons a t ih => simp [ih]

end Entry

open Entry

/-!
## `genfrom_queue` (genqueue.py)

```python
def genfrom_queue(thequeue):
    while True:
        item = thequeue.get()
        if item is StopIteration: break
        yield item
```

We run the generator against the entries held by the queue: each loop
iteration dequeues one entry; the sentinel breaks out of the loop,
every other entry is yielded.  The result is the list of yielded items,
the entries left in the queue, and a flag telling whether the loop
terminated by seeing the sentinel (`false` means the model queue ran
out of entries while the loop still wanted to `get()` — in the real
program the thread would block there). -/
def genfrom_queue : List (Entry α) → List α × List (Entry α) × Bool
  | [] => ([], [], false)
  | Entry.sentinel :: rest => ([], rest, true)
  | Entry.val a :: rest =>
      let r := genfrom_queue rest
      (a :: r.1, r.2.1, r.2.2)

@[simp] theorem genfrom_queue_nil :
    genfrom_queue ([] : List (Entry α)) = ([], [], false) := rfl

@[simp] theorem genfrom_queue_sentinel (rest : List (Entry α)) :
    genfrom_queue (Entry.sentinel :: rest) = ([], rest, true) := rfl

@[simp] theorem genfrom_queue_val (a : α) (rest : List (Entry α)) :
    genfrom_queue (Entry.val a :: rest) =
      ((genfrom_queue rest).1.cons a, (genfrom_queue rest).2.1,
        (genfrom_queue rest).2.2) := rfl

/-- `genfrom_queue` yields exactly the leading items, stops at the
first sentinel, and leaves everything after that sentinel in the
queue. -/
theorem genfrom_queue_vals_sentinel (vs : List α) (rest : List (Entry α)) :
    genfrom_queue (vs.map Entry.val ++ Entry.sentinel :: rest) = (vs, rest, true) := by
  induction vs with
  | nil => rfl
  | cons a t ih => simp [ih]

/-!
## `sendto_queue` (genqueue.py)

```python
def sendto_queue(source,thequeue):
    for item in source:
        thequeue.put(item)
    thequeue.put(StopIteration)
```

A Python iteration either runs to exhaustion or an exception escapes
from `next()` part-way; the `for` statement then propagates the
exception, skipping everything after the loop.  We model an upstream
sequence as the items it produces plus a flag saying whether, after
producing them, it raises instead of finishing normally.  `runPump`
returns the entries `sendto_queue` puts into the queue, in order, and
whether an exception escaped from `sendto_queue` itself. -/
def runPump : List α → Bool → List (Entry α) × Bool
  | [], false => ([Entry.sentinel], false)
  | [], true => ([], true)
  | a :: rest, r =>
      let p := runPump rest r
      (Entry.val a :: p.1, p.2)

/-- The entries a pump puts into its queue for a source that finishes
normally: the source's items in order, then the sentinel. -/
def pumpTrace (s : List α) : List (Entry α) :=
  s.map Entry.val ++ [Entry.sentinel]

theorem runPump_ok (s : List α) : runPump s false = (pumpTrace s, false) := by
  induction s with
  | nil => rfl
  | cons a t ih => simp [runPump, ih, pumpTrace]

theorem runPump_raises (s : List α) : runPump s true = (s.map Entry.val, true) := by
  induction s with
  | nil => rfl
  | cons a t ih => simp [runPump, ih]

@[simp] theorem sentCount_pumpTrace (s : List α) : sentCount (pumpTrace s) = 1 := by
  simp [pumpTrace]

@[simp] theorem valsOf_pumpTrace (s : List α) : valsOf (pumpTrace s) = s := by
  simp [pumpTrace]

@[simp] theorem pumpTrace_ne_nil (s : List α) : pumpTrace s ≠ [] := by
  cases s <;> simp [pumpTrace]

theorem getLast?_pumpTrace (s : List α) :
    (pumpTrace s).getLast? = some Entry.sentinel := by
  simp [pumpTrace, List.getLast?_append]

/-!
## The producer threads of `multiplex` (genmultiplex.py)

```python
def multiplex(sources):
    in_q = Queue.Queue()
    consumers = []
    for s in sources:
        thr = threading.Thread(target=sendto_queue,
                               args=(s,in_q))
        thr.start()
        consumers.append(genfrom_queue(in_q))
    return gen_cat(consumers)
```

All N sources feed ONE shared queue `in_q`, each through its own
`sendto_queue` thread.  Each thread performs its own puts in program
order, but the threads interleave arbitrarily, so the queue contents is
an arbitrary order-preserving interleaving of the N put-sequences.  We
make the interleaving explicit through a schedule: a list of thread
indices, each step letting the scheduled thread (if it still has puts
pending) perform its next put. -/

/-- Run a schedule over the pending put-sequences of the producer
threads.  `pumps` holds, per thread, the entries it has not yet put;
each schedule step appends the scheduled thread's next entry to the
shared queue.  Returns the queue contents (FIFO order) and the pending
puts left in each thread. -/
def runSchedFull : List (List β) → List Nat → List β × List (List β)
  | pumps, [] => ([], pumps)
  | pumps, i :: is =>
      match pumps.get? i with
      | some (e :: rest) =>
          let r := runSchedFull (pumps.set i rest) is
          (e :: r.1, r.2)
      | _ => runSchedFull pumps is

/-- A schedule is complete for the given pumps when afterwards every
thread has performed all of its puts. -/
def SchedDone (pumps : List (List β)) (sched : List Nat) : Prop :=
  (runSchedFull pumps sched).2.all List.isEmpty = true

instance (pumps : List (List β)) (sched : List Nat) :
    Decidable (SchedDone pumps sched) := by
  unfold SchedDone; infer_instance

@[simp] theorem runSchedFull_nil_sched (pumps : List (List β)) :
    runSchedFull pumps ([] : List Nat) = ([], pumps) := rfl

/-- With no producer threads every schedule step is a no-op. -/
theorem runSchedFull_nil_pumps (sched : List Nat) :
    runSchedFull ([] : List (List β)) sched = ([], []) := by
  induction sched with
  | nil => rfl
  | cons i is ih => simp [runSchedFull, ih]

/-- A schedule that put nothing on the queue left every pump untouched. -/
theorem runSchedFull_queue_nil (pumps : List (List β)) (sched : List Nat)
    (h : (runSchedFull pumps sched).1 = []) :
    (runSchedFull pumps sched).2 = pumps := by
  induction sched generalizing pumps with
  | nil => rfl
  | cons i is ih =>
      revert h
      unfold runSchedFull
      match hp : pumps.get? i with
      | some (e :: rest) => intro h; simp at h
      | some [] => exact fun h => ih pumps h
      | none => exact fun h => ih pumps h

/-- A single producer thread puts a prefix of its put-sequence, in
order. -/
theorem runSchedFull_single (sched : List Nat) (l : List β) :
    ∃ k, runSchedFull [l] sched = (l.take k, [l.drop k]) := by
  induction sched generalizing l with
  | nil => exact ⟨0, rfl⟩
  | cons i is ih =>
      match i, l with
      | 0, [] =>
          obtain ⟨k, hk⟩ := ih ([] : List β)
          exact ⟨k, by simpa [runSchedFull] using hk⟩
      | 0, e :: rest =>
          obtain ⟨k, hk⟩ := ih rest
          exact ⟨k + 1, by simp [runSchedFull, hk]⟩
      | j + 1, l =>
          obtain ⟨k, hk⟩ := ih l
          exact ⟨k, by simpa [runSchedFull] using hk⟩

/-!
## `gen_cat` and the merged sequence

`multiplex` returns `gen_cat(consumers)` where `consumers` is a list of
N generators `genfrom_queue(in_q)`, all reading the SAME shared queue.
`gencat.py` itself is not part of the source tree. -/

/-- Modelled from the spec: `gen_cat` (from the missing `gencat.py`) is
the merged sequence `multiplex` returns over its N channel adapters.
Per the spec, the merged sequence keeps pulling the adapters, skipping
exhausted ones, until every adapter has signalled end-of-sequence.
Here all N adapters wrap the one shared channel, so in whatever order
the merged sequence pulls them (sequential concatenation or
round-robin), the pulls dequeue the single FIFO queue front-to-back and
one adapter reaches end-of-sequence per sentinel dequeued; we model
this as draining the shared queue through the N adapters in turn.
Returns the merged yields, the entries left on the queue, and whether
every adapter terminated (`false`: some adapter was left blocked in
`get()`). -/
def gen_cat : Nat → List (Entry α) → List α × List (Entry α) × Bool
  | 0, q => ([], q, true)
  | n + 1, q =>
      let c := genfrom_queue q
      if c.2.2 then
        let r := gen_cat n c.2.1
        (c.1 ++ r.1, r.2.1, r.2.2)
      else c

/-- `multiplex` (genmultiplex.py) under a given thread schedule: the N
`sendto_queue` threads interleave their puts into the shared queue
according to `sched`, and the returned merged sequence drains the N
`genfrom_queue` consumers over that queue. -/
def multiplex (sources : List (List α)) (sched : List Nat) :
    List α × List (Entry α) × Bool :=
  gen_cat sources.length (runSchedFull (sources.map pumpTrace) sched).1

/-!
## Conservation across the scheduler

Each schedule step moves one entry from a thread's pending puts to the
shared queue, so any additive measure of entries is conserved. -/

/-- Per-entry weight 1 for a sentinel. -/
def sentE : Entry α → Nat
  | Entry.sentinel => 1
  | Entry.val _ => 0

/-- Per-entry weight 1 for a data item. -/
def valE : Entry α → Nat
  | Entry.sentinel => 0
  | Entry.val _ => 1

theorem sentE_sum (q : List (Entry α)) : (q.map sentE).sum = sentCount q := by
  induction q with
  | nil => rfl
  | cons e t ih => cases e <;> simp [sentE, ih] <;> omega

theorem valE_sum (q : List (Entry α)) : (q.map valE).sum = (valsOf q).length := by
  induction q with
  | nil => rfl
  | cons e t ih => cases e <;> simp [valE, ih] <;> omega

theorem one_sum {γ : Type} (l : List γ) : (l.map fun _ => (1 : Nat)).sum = l.length := by
  induction l with
  | nil => rfl
  | cons e t ih => simp [ih]; omega

/-- Replacing one element of a list changes an additive measure by the
difference of the old and new element. -/
theorem sum_map_set {γ : Type} (f : γ → Nat) :
    ∀ (P : List γ) (i : Nat) (x y : γ), P.get? i = some x →
      ((P.set i y).map f).sum + f x = (P.map f).sum + f y
  | [], i, x, y, h => by simp at h
  | p :: t, 0, x, y, h => by
      have hx : p = x := by simpa using h
      subst hx
      show ((y :: t).map f).sum + f p = ((p :: t).map f).sum + f y
      simp only [List.map_cons, List.sum_cons]
      omega
  | p :: t, i + 1, x, y, h => by
      have ih := sum_map_set f t i x y h
      show ((p :: t.set i y).map f).sum + f x = ((p :: t).map f).sum + f y
      simp only [List.map_cons, List.sum_cons]
      omega

/-- Conservation: the measure of the queue plus the measure of the
pending puts equals the measure of the original put-sequences. -/
theorem runSchedFull_sum (f : β → Nat) (pumps : List (List β)) (sched : List Nat) :
    ((runSchedFull pumps sched).1.map f).sum
      + ((runSchedFull pumps sched).2.map fun l => (l.map f).sum).sum
      = (pumps.map fun l => (l.map f).sum).sum := by
  induction sched generalizing pumps with
  | nil => simp
  | cons i is ih =>
      simp only [runSchedFull]
      split
      · next e rest heq =>
          have hs := sum_map_set (fun l => (l.map f).sum) pumps i (e :: rest) rest heq
          have ihs := ih (pumps.set i rest)
          simp only [List.map_cons, List.sum_cons] at hs ⊢
          omega
      · next _ => exact ih pumps

/-- Exhausted pumps contribute nothing to an additive measure. -/
theorem sum_map_all_empty {γ : Type} (f : γ → Nat) (P : List (List γ))
    (h : P.all List.isEmpty = true) :
    (P.map fun l => (l.map f).sum).sum = 0 := by
  induction P with
  | nil => rfl
  | cons l t ih =>
      simp only [List.all_cons, Bool.and_eq_true] at h
      have hl : l = [] := by simpa using h.1
      subst hl
      simp [ih h.2]

theorem getD_of_get? {γ : Type} (P : List γ) (k : Nat) (x d : γ)
    (h : P.get? k = some x) : P.getD k d = x := by
  have h1 : P.getD k d = (P.get? k).getD d := rfl
  rw [h1, h]
  rfl

theorem getD_set_eq {γ : Type} (P : List γ) (k : Nat) (y d : γ) (hk : k < P.length) :
    (P.set k y).getD k d = y := by
  have h1 : (P.set k y).getD k d = ((P.set k y).get? k).getD d := rfl
  rw [h1, List.get?_set_eq_of_lt y hk]
  rfl

theorem getD_set_ne {γ : Type} (P : List γ) (k j : Nat) (y d : γ) (h : k ≠ j) :
    (P.set k y).getD j d = P.getD j d := by
  have h1 : (P.set k y).getD j d = ((P.set k y).get? j).getD d := rfl
  have h2 : P.getD j d = (P.get? j).getD d := rfl
  rw [h1, h2, List.get?_set_ne y P h]

/-- The entries one thread contributes to the shared queue are exactly
its own puts, in program order: filtering the queue by a predicate that
selects entries only thread `i` can put recovers the consumed part of
thread `i`'s put-sequence. -/
theorem runSchedFull_filter (p : β → Bool) (i : Nat)
    (pumps : List (List β)) (sched : List Nat)
    (hothers : ∀ j, j ≠ i → (pumps.getD j []).filter p = []) :
    (runSchedFull pumps sched).1.filter p
      ++ ((runSchedFull pumps sched).2.getD i []).filter p
      = (pumps.getD i []).filter p := by
  induction sched generalizing pumps with
  | nil => simp
  | cons k is ih =>
      simp only [runSchedFull]
      split
      · next e rest heq =>
          have hk : k < pumps.length := (List.get?_eq_some.mp heq).1
          by_cases hki : k = i
          · subst hki
            have hpI : pumps.getD k [] = e :: rest := getD_of_get? _ _ _ _ heq
            have hothers' : ∀ j, j ≠ k → ((pumps.set k rest).getD j []).filter p = [] := by
              intro j hj
              rw [getD_set_ne _ _ _ _ _ (fun h => hj h.symm)]
              exact hothers j hj
            have ihs := ih (pumps.set k rest) hothers'
            rw [getD_set_eq _ _ _ _ hk] at ihs
            rw [hpI, List.filter_cons, List.filter_cons]
            cases hpe : p e with
            | true =>
                simp
                simpa using ihs
            | false => simpa using ihs
          · have hpK : pumps.getD k [] = e :: rest := getD_of_get? _ _ _ _ heq
            have hkfilter : (e :: rest).filter p = [] := by
              rw [← hpK]; exact hothers k hki
            have hpe : p e = false := by
              rcases List.filter_eq_nil.mp hkfilter e (by simp) with h
              simpa using h
            have hrest : rest.filter p = [] := by
              apply List.filter_eq_nil.mpr
              intro a ha
              exact List.filter_eq_nil.mp hkfilter a (by simp [ha])
            have hothers' : ∀ j, j ≠ i → ((pumps.set k rest).getD j []).filter p = [] := by
              intro j hj
              by_cases hjk : k = j
              · subst hjk
                rw [getD_set_eq _ _ _ _ hk]
                exact hrest
              · rw [getD_set_ne _ _ _ _ _ hjk]
                exact hothers j hj
            have ihs := ih (pumps.set k rest) hothers'
            rw [getD_set_ne _ _ _ _ _ hki] at ihs
            rw [List.filter_cons]
            simp only [hpe]
            simpa using ihs
      · next _ => exact ih pumps hothers

theorem runSchedFull_cons_emit {pumps : List (List β)} {k : Nat} {e : β}
    {rest : List β} (is : List Nat) (heq : pumps.get? k = some (e :: rest)) :
    runSchedFull pumps (k :: is) =
      (e :: (runSchedFull (pumps.set k rest) is).1,
        (runSchedFull (pumps.set k rest) is).2) := by
  simp only [runSchedFull]
  split
  · next e' rest' heq' =>
      rw [heq] at heq'
      cases heq'
      rfl
  · next hno =>
      rw [heq] at hno
      simp at hno

theorem runSchedFull_cons_skip {pumps : List (List β)} {k : Nat} (is : List Nat)
    (h : ∀ (e : β) (rest : List β), pumps.get? k ≠ some (e :: rest)) :
    runSchedFull pumps (k :: is) = runSchedFull pumps is := by
  simp only [runSchedFull]

/-- If every thread's put-sequence ends with the sentinel and the
schedule drains every thread, the last entry of the shared queue (if
any) is a sentinel. -/
theorem runSchedFull_getLast (pumps : List (List (Entry α))) (sched : List Nat)
    (hends : ∀ l ∈ pumps, l = [] ∨ l.getLast? = some Entry.sentinel)
    (hc : SchedDone pumps sched) :
    (runSchedFull pumps sched).1 = [] ∨
      (runSchedFull pumps sched).1.getLast? = some Entry.sentinel := by
  induction sched generalizing pumps with
  | nil => exact Or.inl rfl
  | cons k is ih =>
      by_cases hcase : ∃ e rest, pumps.get? k = some (e :: rest)
      · obtain ⟨e, rest, heq⟩ := hcase
        have hk : k < pumps.length := (List.get?_eq_some.mp heq).1
        have hre := runSchedFull_cons_emit is heq
        have hmem : (e :: rest) ∈ pumps := List.get?_mem heq
        have hends' : ∀ l ∈ pumps.set k rest, l = [] ∨ l.getLast? = some Entry.sentinel := by
          intro l hl
          rcases List.mem_or_eq_of_mem_set hl with h | h
          · exact hends l h
          · subst h
            rcases hends _ hmem with h | h
            · exact absurd h (by simp)
            · cases l with
              | nil => exact Or.inl rfl
              | cons b t =>
                  right
                  rw [List.getLast?_cons_cons] at h
                  exact h
        have hc' : SchedDone (pumps.set k rest) is := by
          unfold SchedDone at hc ⊢
          rw [hre] at hc
          exact hc
        rcases ih (pumps.set k rest) hends' hc' with hq | hq
        · right
          rw [hre]
          have hpumps := runSchedFull_queue_nil (pumps.set k rest) is hq
          have hall : (pumps.set k rest).all List.isEmpty = true := by
            unfold SchedDone at hc'
            rw [hpumps] at hc'
            exact hc'
          have hrest : rest = [] := by
            have hget : (pumps.set k rest).get? k = some rest :=
              List.get?_set_eq_of_lt rest hk
            have hm := List.get?_mem hget
            simpa using List.all_eq_true.mp hall _ hm
          subst hrest
          rw [hq]
          rcases hends _ hmem with h | h
          · exact absurd h (by simp)
          · simpa using h
        · right
          rw [hre]
          cases hq' : (runSchedFull (pumps.set k rest) is).1 with
          | nil => rw [hq'] at hq; simp at hq
          | cons b t =>
              rw [hq'] at hq
              rw [List.getLast?_cons_cons]
              exact hq
      · have h' : ∀ (e : Entry α) (rest : List (Entry α)),
            pumps.get? k ≠ some (e :: rest) := by
          intro e rest hcon
          exact hcase ⟨e, rest, hcon⟩
        have hrs := runSchedFull_cons_skip is h'
        have hc' : SchedDone pumps is := by
          unfold SchedDone at hc ⊢
          rw [hrs] at hc
          exact hc
        rw [hrs]
        exact ih pumps hends hc'

/-- A list of entries holding at least one sentinel splits at its first
sentinel. -/
theorem exists_sentinel_split (q : List (Entry α)) (h : 1 ≤ sentCount q) :
    ∃ (vs : List α) (rest : List (Entry α)),
      q = vs.map Entry.val ++ Entry.sentinel :: rest := by
  induction q with
  | nil => simp at h
  | cons e t ih =>
      cases e with
      | sentinel => exact ⟨[], t, rfl⟩
      | val a =>
          have ht : 1 ≤ sentCount t := by simpa using h
          obtain ⟨vs, rest, hrest⟩ := ih ht
          exact ⟨a :: vs, rest, by simp [hrest]⟩

theorem sentinel_mem_of_getLast? (q : List (Entry α))
    (h : q.getLast? = some Entry.sentinel) : (Entry.sentinel : Entry α) ∈ q := by
  exact List.mem_of_mem_getLast? h

theorem sentCount_pos_of_mem {q : List (Entry α)}
    (h : (Entry.sentinel : Entry α) ∈ q) : 1 ≤ sentCount q := by
  induction q with
  | nil => simp at h
  | cons e t ih =>
      cases e with
      | sentinel => simp
      | val a =>
          have : (Entry.sentinel : Entry α) ∈ t := by simpa using h
          have := ih this
          simpa using this

/-- Draining a queue that holds exactly `n` sentinels, the last entry
being one of them, through `n` chained `genfrom_queue` consumers yields
every data item of the queue in FIFO order and empties the queue, with
every consumer terminating. -/
theorem gen_cat_drain : ∀ (n : Nat) (q : List (Entry α)),
    sentCount q = n → (q = [] ∨ q.getLast? = some Entry.sentinel) →
    gen_cat n q = (valsOf q, [], true)
  | 0, q, hs, hlast => by
      have hq : q = [] := by
        rcases hlast with h | h
        · exact h
        · have := sentCount_pos_of_mem (sentinel_mem_of_getLast? q h)
          omega
      subst hq
      rfl
  | n + 1, q, hs, hlast => by
      obtain ⟨vs, rest, rfl⟩ := exists_sentinel_split q (by omega)
      have hsr : sentCount rest = n := by
        simp at hs
        omega
      have hlast' : rest = [] ∨ rest.getLast? = some Entry.sentinel := by
        cases hrest : rest with
        | nil => exact Or.inl rfl
        | cons b t =>
            right
            rcases hlast with h | h
            · exact absurd h (by simp)
            · rw [hrest] at h
              rw [show vs.map Entry.val ++ Entry.sentinel :: b :: t
                    = (vs.map Entry.val ++ [Entry.sentinel]) ++ b :: t by simp] at h
              rw [List.getLast?_append_of_ne_nil _ (by simp)] at h
              exact h
      have ihres := gen_cat_drain n rest hsr hlast'
      show gen_cat (n + 1) (vs.map Entry.val ++ Entry.sentinel :: rest) = _
      rw [gen_cat]
      simp only [genfrom_queue_vals_sentinel, ihres]
      simp

theorem getD_empty_of_all_empty {γ : Type} (P : List (List γ))
    (h : P.all List.isEmpty = true) (i : Nat) : P.getD i [] = [] := by
  cases hp : P.get? i with
  | none =>
      have h1 : P.getD i [] = (P.get? i).getD [] := rfl
      rw [h1, hp]
      rfl
  | some l =>
      have hl : l = [] := by
        simpa using List.all_eq_true.mp h _ (List.get?_mem hp)
      rw [getD_of_get? _ _ _ _ hp, hl]

/-- Under a complete schedule, the shared queue of `multiplex` holds
exactly one sentinel per source. -/
theorem multiplex_queue_sentCount (sources : List (List α)) (sched : List Nat)
    (hc : SchedDone (sources.map pumpTrace) sched) :
    sentCount (runSchedFull (sources.map pumpTrace) sched).1 = sources.length := by
  have hsum := runSchedFull_sum sentE (sources.map pumpTrace) sched
  rw [sum_map_all_empty sentE _ hc] at hsum
  rw [sentE_sum] at hsum
  have hrhs : ((sources.map pumpTrace).map fun l => (l.map sentE).sum).sum
      = sources.length := by
    rw [List.map_map]
    have he : ((fun l => (l.map sentE).sum) ∘ pumpTrace) = fun (_ : List α) => (1 : Nat) := by
      funext s
      simp [Function.comp, sentE_sum]
    rw [he, one_sum]
  omega

/-- Under a complete schedule, the shared queue of `multiplex` holds
exactly as many data items as all the sources together. -/
theorem multiplex_queue_valsLength (sources : List (List α)) (sched : List Nat)
    (hc : SchedDone (sources.map pumpTrace) sched) :
    (valsOf (runSchedFull (sources.map pumpTrace) sched).1).length
      = (sources.map List.length).sum := by
  have hsum := runSchedFull_sum valE (sources.map pumpTrace) sched
  rw [sum_map_all_empty valE _ hc] at hsum
  rw [valE_sum] at hsum
  have hrhs : ((sources.map pumpTrace).map fun l => (l.map valE).sum).sum
      = (sources.map List.length).sum := by
    rw [List.map_map]
    have he : ((fun l => (l.map valE).sum) ∘ pumpTrace)
        = fun (s : List α) => s.length := by
      funext s
      simp [Function.comp, valE_sum]
    rw [he]
  omega

/-- Under a complete schedule the merged sequence of `multiplex` yields
every data item of the shared queue, in queue order, and every
consumer terminates. -/
theorem multiplex_drains (sources : List (List α)) (sched : List Nat)
    (hc : SchedDone (sources.map pumpTrace) sched) :
    multiplex sources sched =
      (valsOf (runSchedFull (sources.map pumpTrace) sched).1, [], true) := by
  have hlast := runSchedFull_getLast (sources.map pumpTrace) sched
    (by
      intro l hl
      obtain ⟨s, _, rfl⟩ := List.mem_map.mp hl
      exact Or.inr (getLast?_pumpTrace s))
    hc
  exact gen_cat_drain sources.length _
    (multiplex_queue_sentCount sources sched hc) hlast

/-- With a single source the shared queue ends up holding exactly that
source's put-sequence. -/
theorem multiplex_single_queue (A : List α) (sched : List Nat)
    (hc : SchedDone [pumpTrace A] sched) :
    (runSchedFull [pumpTrace A] sched).1 = pumpTrace A := by
  obtain ⟨k, hk⟩ := runSchedFull_single sched (pumpTrace A)
  have hdrop : (pumpTrace A).drop k = [] := by
    unfold SchedDone at hc
    rw [hk] at hc
    simpa using hc
  have htad := List.take_append_drop k (pumpTrace A)
  rw [hdrop, List.append_nil] at htad
  rw [hk, htad]

/-!
## Item provenance

To speak about which source a merged item "originates from", we tag
every item with its source's index before multiplexing; the tags travel
through the pipeline as part of the items. -/

/-- Tag every element of a source with the source's index. -/
def tagSrc (i : Nat) (l : List α) : List (Nat × α) :=
  l.map fun a => (i, a)

/-- Does this queue entry carry an item of source `i`? -/
def entryTag (i : Nat) : Entry (Nat × α) → Bool
  | Entry.val (j, _) => j == i
  | Entry.sentinel => false

@[simp] theorem tagSrc_map_snd (i : Nat) (l : List α) :
    (tagSrc i l).map Prod.snd = l := by
  induction l with
  | nil => rfl
  | cons a t ih => simp [tagSrc]

@[simp] theorem tagSrc_length (i : Nat) (l : List α) :
    (tagSrc i l).length = l.length := by
  simp [tagSrc]

/-- Selecting source `i`'s items from a list of merged items equals
taking the items of the entries tagged `i`. -/
theorem filterMap_untag_valsOf (i : Nat) (q : List (Entry (Nat × α))) :
    (valsOf q).filterMap (fun p => if p.1 = i then some p.2 else none)
      = (valsOf (q.filter (entryTag i))).map Prod.snd := by
  induction q with
  | nil => rfl
  | cons e t ih =>
      cases e with
      | sentinel => simpa [entryTag] using ih
      | val p =>
          obtain ⟨j, a⟩ := p
          by_cases hji : j = i
          · subst hji
            simpa [entryTag] using ih
          · simpa [entryTag, hji] using ih

/-- A tagged pump's trace filtered by its own tag is its items. -/
theorem filter_entryTag_pumpTrace_self (i : Nat) (S : List α) :
    (pumpTrace (tagSrc i S)).filter (entryTag i) = (tagSrc i S).map Entry.val := by
  induction S with
  | nil => simp [pumpTrace, tagSrc, entryTag]
  | cons a t ih =>
      simp only [pumpTrace, tagSrc, List.map_cons, List.cons_append,
        List.filter_cons] at ih ⊢
      simpa [entryTag] using ih

/-- A tagged pump's trace filtered by another source's tag is empty. -/
theorem filter_entryTag_pumpTrace_other (i j : Nat) (S : List α) (h : j ≠ i) :
    (pumpTrace (tagSrc j S)).filter (entryTag i) = [] := by
  induction S with
  | nil => simp [pumpTrace, tagSrc, entryTag]
  | cons a t ih =>
      simp only [pumpTrace, tagSrc, List.map_cons, List.cons_append,
        List.filter_cons] at ih ⊢
      simpa [entryTag, h] using ih

/-!
## Per-pull view of the Channel Sequence Adapter

`genfrom_queue` above runs the generator to completion against fixed
queue contents.  For the per-pull contract we also model one `next()`
call on the generator object explicitly. -/

/-- The state of one `genfrom_queue` generator object: still inside its
loop, or already terminated by a sentinel. -/
inductive AdState : Type
  | Active : AdState
  | Exhausted : AdState
  deriving DecidableEq, Repr

/-- One pull (`next()`) on a `genfrom_queue` generator given the
current queue contents.  An exhausted generator reports
end-of-sequence at once (Python re-raises `StopIteration` without
resuming the body), touching neither the queue nor blocking.  An
active generator dequeues one entry; `none` as the overall result
means the queue is empty and `get()` blocks.  A dequeued sentinel ends
the sequence without being yielded; any other entry is yielded. -/
def pull : AdState → List (Entry α) → Option (Option α × AdState × List (Entry α))
  | AdState.Exhausted, q => some (none, AdState.Exhausted, q)
  | AdState.Active, [] => none
  | AdState.Active, Entry.sentinel :: rest => some (none, AdState.Exhausted, rest)
  | AdState.Active, Entry.val a :: rest => some (some a, AdState.Active, rest)

/-- `n` successive pulls on the same generator. -/
def pulls : Nat → AdState → List (Entry α) →
    Option (List (Option α) × AdState × List (Entry α))
  | 0, s, q => some ([], s, q)
  | n + 1, s, q =>
      match pull s q with
      | none => none
      | some (y, s₂, q₂) =>
          match pulls n s₂ q₂ with
          | none => none
          | some (ys, s₃, q₃) => some (y :: ys, s₃, q₃)

/-- However often an exhausted adapter is pulled again, it keeps
reporting end-of-sequence, never blocks, and never dequeues. -/
theorem pulls_exhausted (n : Nat) (q : List (Entry α)) :
    pulls n AdState.Exhausted q = some (List.replicate n none, AdState.Exhausted, q) := by
  induction n with
  | zero => rfl
  | succ n ih => simp [pulls, pull, ih, List.replicate_succ]

/-- Consistency of the two views: pulling an active adapter
`vs.length + 1` times over a queue holding `vs` then a sentinel
yields each item once, then end-of-sequence, exhausting the adapter
and consuming the queue exactly as `genfrom_queue` does. -/
theorem pulls_eq_genfrom_queue (vs : List α) (rest : List (Entry α)) :
    pulls (vs.length + 1) AdState.Active (vs.map Entry.val ++ Entry.sentinel :: rest)
      = some (vs.map some ++ [none], AdState.Exhausted, rest)
    ∧ genfrom_queue (vs.map Entry.val ++ Entry.sentinel :: rest) = (vs, rest, true) := by
  refine ⟨?_, genfrom_queue_vals_sentinel vs rest⟩
  induction vs with
  | nil => rfl
  | cons a t ih =>
      show pulls (t.length + 1 + 1) AdState.Active
        (Entry.val a :: (t.map Entry.val ++ Entry.sentinel :: rest)) = _
      rw [pulls]
      simp only [pull]
      rw [ih]
      simp

/-!
## `broadcast` (companion pattern, consthread.py)

`ConsumerThread.send(item)` puts `item` into that consumer's own queue
`in_q`; `ConsumerThread.run` drives `target(genfrom_queue(in_q))`. -/

/-- Modelled from the spec: `broadcast` (`broadcast.py` is not under
src/, only its caller consthread.py is).  Per the spec it "pulls one
element at a time from source; for each element, calls put(element) on
every sink's Hand-off Channel, in sink-list order, before pulling the
next source element.  On source exhaustion, put(SENTINEL) to every sink
once".  Each put goes through `ConsumerThread.send`, i.e. into that
sink's own queue.  The result is the global put trace in order, each
put tagged with the index of the sink it goes to. -/
def broadcast : List α → Nat → List (Nat × Entry α)
  | [], n => (List.range n).map fun i => (i, Entry.sentinel)
  | a :: rest, n =>
      ((List.range n).map fun i => (i, Entry.val a)) ++ broadcast rest n

/-- The entries that end up in sink `i`'s own channel: the puts of the
trace addressed to sink `i`, in order. -/
def sinkQueue (tr : List (Nat × Entry α)) (i : Nat) : List (Entry α) :=
  tr.filterMap fun p => if p.1 = i then some p.2 else none

/-- One lock-step block of puts delivers exactly one entry to each
sink `i < n`. -/
theorem sinkQueue_range_block (n i : Nat) (e : Entry α) :
    sinkQueue ((List.range n).map fun j => (j, e)) i
      = if i < n then [e] else [] := by
  induction n with
  | zero => simp [sinkQueue]
  | succ n ih =>
      rw [List.range_succ]
      simp only [List.map_append, List.map_cons, List.map_nil, sinkQueue,
        List.filterMap_append] at ih ⊢
      by_cases h1 : i < n
      · have h2 : ¬ n = i := by omega
        have h3 : i < n + 1 := by omega
        simp [ih, h1, h2, h3]
      · by_cases h2 : i = n
        · subst h2
          simp [ih, h1]
        · have h2' : ¬ n = i := fun h => h2 h.symm
          have h3 : ¬ i < n + 1 := by omega
          simp [ih, h1, h2', h3]

/-- Every sink's channel receives exactly the source's items in order,
then one sentinel. -/
theorem sinkQueue_broadcast (S : List α) (n i : Nat) (hi : i < n) :
    sinkQueue (broadcast S n) i = pumpTrace S := by
  induction S with
  | nil =>
      show sinkQueue ((List.range n).map fun j => (j, Entry.sentinel)) i = _
      rw [sinkQueue_range_block]
      simp [hi, pumpTrace]
  | cons a t ih =>
      show sinkQueue (((List.range n).map fun j => (j, Entry.val a))
        ++ broadcast t n) i = _
      rw [show ∀ (u v : List (Nat × Entry α)), sinkQueue (u ++ v) i
            = sinkQueue u i ++ sinkQueue v i by
          intro u v
          simp [sinkQueue, List.filterMap_append]]
      rw [sinkQueue_range_block, ih]
      simp [hi, pumpTrace]

/-!
## The claims
-/

/-- Position of the first sentinel in a split queue. -/
theorem get?_length_append {γ : Type} :
    ∀ (l : List γ) (e : γ) (r : List γ), (l ++ e :: r).get? l.length = some e
  | [], _, _ => rfl
  | _ :: t, e, r => get?_length_append t e r

/-- C4 counterexample: a source that yields one item and then raises.
`sendto_queue` propagates the exception out of its `for` loop, so the
final `put(StopIteration)` is skipped: the queue receives only the
item and no sentinel, and the exception escapes the pump. -/
theorem c4_pump_failure_counterexample :
    runPump [(1 : Nat)] true = ([Entry.val 1], true)
    ∧ sentCount (runPump [(1 : Nat)] true).1 = 0 := by
  decide

/-- C4 amended: when the upstream raises after yielding `items`, the
pump enqueues exactly those items — the sentinel is never enqueued (the
consumer side can block forever) — and the exception escapes
`sendto_queue`; no error entry crosses the channel.  Only on normal
exhaustion is the sentinel enqueued, once, as the last entry. -/
theorem c4_pump_failure_amended (items : List α) :
    runPump items true = (items.map Entry.val, true)
    ∧ sentCount (runPump items true).1 = 0
    ∧ runPump items false = (pumpTrace items, false) :=
  ⟨runPump_raises items, by rw [runPump_raises]; simp, runPump_ok items⟩

/-- C5: `multiplex` over an empty source list immediately reports
end-of-sequence under every thread schedule: no items, nothing left on
the queue, no consumer blocked. -/
theorem c5_multiplex_no_sources (sched : List Nat) :
    multiplex ([] : List (List α)) sched = ([], [], true) := by
  unfold multiplex
  rw [show (([] : List (List α)).map pumpTrace) = [] from rfl,
    runSchedFull_nil_pumps]
  rfl

/-- C6: multiplexing a single finite source is the identity on that
source's element sequence, under every complete thread schedule. -/
theorem c6_multiplex_single_source (A : List α) (sched : List Nat)
    (hc : SchedDone [pumpTrace A] sched) :
    multiplex [A] sched = (A, [], true) := by
  have hd := multiplex_drains [A] sched hc
  rw [hd]
  have hq := multiplex_single_queue A sched hc
  show (valsOf (runSchedFull [pumpTrace A] sched).1, [], true) = _
  rw [hq, valsOf_pumpTrace]

theorem c6_multiplex_single_source_witness :
    SchedDone [pumpTrace [1, 2]] [0, 0, 0]
    ∧ multiplex [[1, 2]] [0, 0, 0] = ([1, 2], [], true) :=
  ⟨by decide, c6_multiplex_single_source [1, 2] [0, 0, 0] (by decide)⟩

/-- C7: one pull on an active adapter dequeues exactly one entry,
yielding a data item and staying active, or ending the sequence on the
sentinel without yielding it; and an adapter that is already exhausted
reports end-of-sequence on every further pull, dequeuing nothing and
never blocking. -/
theorem c7_adapter_pull_contract (a : α) (rest q : List (Entry α)) (n : Nat) :
    pull AdState.Active (Entry.val a :: rest)
      = some (some a, AdState.Active, rest)
    ∧ pull AdState.Active (Entry.sentinel :: rest)
      = some (none, AdState.Exhausted, rest)
    ∧ pulls n AdState.Exhausted q
      = some (List.replicate n none, AdState.Exhausted, q) :=
  ⟨rfl, rfl, pulls_exhausted n q⟩

/-- C9: `genfrom_queue` ends the stream on the `StopIteration` class
object itself, wherever it sits in the queue: if the entry at position
`k` (= `vs.length`) is that object and the entries before it are data,
the consumer yields precisely those first `k` entries and then ends —
also when a producer meant that entry as an ordinary item. -/
theorem c9_stops_at_stop_iteration_value (vs : List α) (rest : List (Entry α)) :
    (vs.map Entry.val ++ Entry.sentinel :: rest).get? vs.length
      = some Entry.sentinel
    ∧ genfrom_queue (vs.map Entry.val ++ Entry.sentinel :: rest)
      = (vs, rest, true) := by
  constructor
  · rw [show vs.length = (vs.map Entry.val).length by simp]
    exact get?_length_append _ _ _
  · exact genfrom_queue_vals_sentinel vs rest

/-- C10: a consumer that ends on a sentinel leaves every later entry in
the queue; a second `genfrom_queue` consumer over the same queue then
yields exactly those remaining entries, in FIFO order, up to the next
sentinel. -/
theorem c10_leftover_entries_for_second_consumer
    (vs₁ vs₂ : List α) (rest : List (Entry α)) :
    genfrom_queue (vs₁.map Entry.val
        ++ Entry.sentinel :: (vs₂.map Entry.val ++ Entry.sentinel :: rest))
      = (vs₁, vs₂.map Entry.val ++ Entry.sentinel :: rest, true)
    ∧ genfrom_queue (vs₂.map Entry.val ++ Entry.sentinel :: rest)
      = (vs₂, rest, true) :=
  ⟨genfrom_queue_vals_sentinel vs₁ _, genfrom_queue_vals_sentinel vs₂ rest⟩

/-- C8: broadcast enqueues each source element into every sink's
channel (one lock-step block per element, sinks in list order) and one
final sentinel per sink, so every sink's channel holds exactly the
source followed by the sentinel and every sink's observed sequence is
exactly the source. -/
theorem c8_broadcast_fidelity (S : List α) (n i : Nat) (hn : 1 ≤ n) (hi : i < n) :
    sinkQueue (broadcast S n) i = S.map Entry.val ++ [Entry.sentinel]
    ∧ genfrom_queue (sinkQueue (broadcast S n) i) = (S, [], true) := by
  have h := sinkQueue_broadcast S n i hi
  exact ⟨h, by rw [h]; exact genfrom_queue_vals_sentinel S []⟩

theorem c8_broadcast_fidelity_witness :
    1 ≤ 2 ∧ 1 < 2
    ∧ (sinkQueue (broadcast [5, 6] 2) 1
          = [(5 : Nat), 6].map Entry.val ++ [Entry.sentinel]
        ∧ genfrom_queue (sinkQueue (broadcast [5, 6] 2) 1) = ([5, 6], [], true)) :=
  ⟨by decide, by decide, c8_broadcast_fidelity [5, 6] 2 1 (by decide) (by decide)⟩

/-- C1 counterexample: `multiplex` does not merge round-robin.  All
source threads share one queue, so the merged order is whatever order
the threads' puts interleave in.  Under the schedule that lets source
A's thread run to completion before B's starts, multiplexing
A=[0,1], B=[10,11,12] yields [0,1,10,11,12], not the claimed
[0,10,1,11,12]. -/
theorem c1_round_robin_counterexample :
    SchedDone ([[0, 1], [10, 11, 12]].map pumpTrace) [0, 0, 0, 1, 1, 1, 1]
    ∧ (multiplex [[(0 : Nat), 1], [10, 11, 12]] [0, 0, 0, 1, 1, 1, 1]).1
        = [0, 1, 10, 11, 12]
    ∧ (multiplex [[(0 : Nat), 1], [10, 11, 12]] [0, 0, 0, 1, 1, 1, 1]).1
        ≠ [0, 10, 1, 11, 12] := by
  decide

/-- C1 amended: with A=[a0,a1] and B=[b0,b1,b2], `multiplex([A,B])`
yields an order-preserving interleaving of A and B that is selected by
the thread schedule, not by a fixed cycle: the alternating schedule
produces the round-robin order [a0,b0,a1,b1,b2], while the A-first
schedule produces [a0,a1,b0,b1,b2]; both leave every adapter
terminated with nothing unread. -/
theorem c1_schedule_selects_interleaving {α : Type} (a0 a1 b0 b1 b2 : α) :
    SchedDone ([[a0, a1], [b0, b1, b2]].map pumpTrace) [0, 1, 0, 1, 0, 1, 1]
    ∧ multiplex [[a0, a1], [b0, b1, b2]] [0, 1, 0, 1, 0, 1, 1]
        = ([a0, b0, a1, b1, b2], [], true)
    ∧ SchedDone ([[a0, a1], [b0, b1, b2]].map pumpTrace) [0, 0, 0, 1, 1, 1, 1]
    ∧ multiplex [[a0, a1], [b0, b1, b2]] [0, 0, 0, 1, 1, 1, 1]
        = ([a0, a1, b0, b1, b2], [], true) :=
  ⟨rfl, rfl, rfl, rfl⟩

/-- C3 counterexample: `multiplex` creates ONE queue shared by all of
its sources, so with two sources that channel receives TWO sentinels,
and the first of them (queue position 2 of 7, under the A-first
schedule) is not the last enqueued entry. -/
theorem c3_shared_channel_counterexample :
    SchedDone ([[0, 1], [10, 11, 12]].map pumpTrace) [0, 0, 0, 1, 1, 1, 1]
    ∧ sentCount (runSchedFull ([[(0 : Nat), 1], [10, 11, 12]].map pumpTrace)
        [0, 0, 0, 1, 1, 1, 1]).1 = 2
    ∧ (runSchedFull ([[(0 : Nat), 1], [10, 11, 12]].map pumpTrace)
        [0, 0, 0, 1, 1, 1, 1]).1.get? 2 = some Entry.sentinel
    ∧ (runSchedFull ([[(0 : Nat), 1], [10, 11, 12]].map pumpTrace)
        [0, 0, 0, 1, 1, 1, 1]).1.length = 7 := by
  decide

/-- C3 amended: each Source Pump enqueues the sentinel exactly once,
as the last of its own puts, and a channel fed by a single pump
receives exactly one sentinel, as its last entry, with the consumer
ending there and taking no items after it.  The one channel `multiplex`
shares among its N sources, however, receives exactly N sentinels
under every complete schedule. -/
theorem c3_sentinel_per_pump (s : List α) (sources : List (List α))
    (sched : List Nat) (hc : SchedDone (sources.map pumpTrace) sched) :
    sentCount (pumpTrace s) = 1
    ∧ (pumpTrace s).getLast? = some Entry.sentinel
    ∧ genfrom_queue (pumpTrace s) = (s, [], true)
    ∧ sentCount (runSchedFull (sources.map pumpTrace) sched).1 = sources.length :=
  ⟨sentCount_pumpTrace s, getLast?_pumpTrace s,
    genfrom_queue_vals_sentinel s [], multiplex_queue_sentCount sources sched hc⟩

theorem c3_sentinel_per_pump_witness :
    SchedDone ([[(1 : Nat)], [2]].map pumpTrace) [0, 0, 1, 1]
    ∧ (sentCount (pumpTrace [(1 : Nat), 2]) = 1
        ∧ (pumpTrace [(1 : Nat), 2]).getLast? = some Entry.sentinel
        ∧ genfrom_queue (pumpTrace [(1 : Nat), 2]) = ([1, 2], [], true)
        ∧ sentCount (runSchedFull ([[(1 : Nat)], [2]].map pumpTrace)
            [0, 0, 1, 1]).1 = [[(1 : Nat)], [2]].length) :=
  ⟨by decide, c3_sentinel_per_pump [1, 2] [[1], [2]] [0, 0, 1, 1] (by decide)⟩

/-- The items of one source in a three-source multiplex: selecting by
that source's tag from the merged output recovers the source, in
order. -/
theorem multiplex_three_tagged_source (A B C : List α) (sched : List Nat)
    (hc : SchedDone ([tagSrc 0 A, tagSrc 1 B, tagSrc 2 C].map pumpTrace) sched)
    (i : Nat) (S : List α)
    (hPi : ([tagSrc 0 A, tagSrc 1 B, tagSrc 2 C].map pumpTrace).getD i []
        = pumpTrace (tagSrc i S))
    (hothers : ∀ j, j ≠ i →
      ((([tagSrc 0 A, tagSrc 1 B, tagSrc 2 C].map pumpTrace).getD j []).filter
        (entryTag i)) = []) :
    (multiplex [tagSrc 0 A, tagSrc 1 B, tagSrc 2 C] sched).1.filterMap
        (fun p => if p.1 = i then some p.2 else none) = S := by
  have hfil := runSchedFull_filter (entryTag i) i
    ([tagSrc 0 A, tagSrc 1 B, tagSrc 2 C].map pumpTrace) sched hothers
  rw [getD_empty_of_all_empty _ hc i] at hfil
  rw [hPi, filter_entryTag_pumpTrace_self] at hfil
  simp only [List.filter_nil, List.append_nil] at hfil
  rw [multiplex_drains _ _ hc]
  show (valsOf (runSchedFull
      ([tagSrc 0 A, tagSrc 1 B, tagSrc 2 C].map pumpTrace) sched).1).filterMap
      (fun p => if p.1 = i then some p.2 else none) = S
  rw [filterMap_untag_valsOf, hfil]
  simp

/-- C2: under every complete thread schedule, a three-source multiplex
yields exactly len(A)+len(B)+len(C) items in total, and the items
originating from each source (tracked by tagging every item with its
source index) form exactly that source, in its original order. -/
theorem c2_multiplex_three_sources (A B C : List α) (sched : List Nat)
    (hc : SchedDone ([tagSrc 0 A, tagSrc 1 B, tagSrc 2 C].map pumpTrace) sched) :
    (multiplex [tagSrc 0 A, tagSrc 1 B, tagSrc 2 C] sched).1.length
        = A.length + B.length + C.length
    ∧ (multiplex [tagSrc 0 A, tagSrc 1 B, tagSrc 2 C] sched).1.filterMap
        (fun p => if p.1 = 0 then some p.2 else none) = A
    ∧ (multiplex [tagSrc 0 A, tagSrc 1 B, tagSrc 2 C] sched).1.filterMap
        (fun p => if p.1 = 1 then some p.2 else none) = B
    ∧ (multiplex [tagSrc 0 A, tagSrc 1 B, tagSrc 2 C] sched).1.filterMap
        (fun p => if p.1 = 2 then some p.2 else none) = C := by
  refine ⟨?_, ?_, ?_, ?_⟩
  · rw [multiplex_drains _ _ hc]
    show (valsOf (runSchedFull
        ([tagSrc 0 A, tagSrc 1 B, tagSrc 2 C].map pumpTrace) sched).1).length = _
    rw [multiplex_queue_valsLength _ _ hc]
    simp
    omega
  · refine multiplex_three_tagged_source A B C sched hc 0 A rfl ?_
    intro j hj
    match j with
    | 0 => exact absurd rfl hj
    | 1 => exact filter_entryTag_pumpTrace_other 0 1 B (by omega)
    | 2 => exact filter_entryTag_pumpTrace_other 0 2 C (by omega)
    | n + 3 => rfl
  · refine multiplex_three_tagged_source A B C sched hc 1 B rfl ?_
    intro j hj
    match j with
    | 0 => exact filter_entryTag_pumpTrace_other 1 0 A (by omega)
    | 1 => exact absurd rfl hj
    | 2 => exact filter_entryTag_pumpTrace_other 1 2 C (by omega)
    | n + 3 => rfl
  · refine multiplex_three_tagged_source A B C sched hc 2 C rfl ?_
    intro j hj
    match j with
    | 0 => exact filter_entryTag_pumpTrace_other 2 0 A (by omega)
    | 1 => exact filter_entryTag_pumpTrace_other 2 1 B (by omega)
    | 2 => exact absurd rfl hj
    | n + 3 => rfl

theorem c2_multiplex_three_sources_witness :
    SchedDone ([tagSrc 0 [1, 2], tagSrc 1 [3], tagSrc 2 [4, 5]].map pumpTrace)
        [0, 1, 2, 0, 1, 2, 0, 2]
    ∧ ((multiplex [tagSrc 0 [(1 : Nat), 2], tagSrc 1 [3], tagSrc 2 [4, 5]]
          [0, 1, 2, 0, 1, 2, 0, 2]).1.length = 2 + 1 + 2
        ∧ (multiplex [tagSrc 0 [(1 : Nat), 2], tagSrc 1 [3], tagSrc 2 [4, 5]]
            [0, 1, 2, 0, 1, 2, 0, 2]).1.filterMap
            (fun p => if p.1 = 0 then some p.2 else none) = [1, 2]
        ∧ (multiplex [tagSrc 0 [(1 : Nat), 2], tagSrc 1 [3], tagSrc 2 [4, 5]]
            [0, 1, 2, 0, 1, 2, 0, 2]).1.filterMap
            (fun p => if p.1 = 1 then some p.2 else none) = [3]
        ∧ (multiplex [tagSrc 0 [(1 : Nat), 2], tagSrc 1 [3], tagSrc 2 [4, 5]]
            [0, 1, 2, 0, 1, 2, 0, 2]).1.filterMap
            (fun p => if p.1 = 2 then some p.2 else none) = [4, 5]) :=
  ⟨by decide, c2_multiplex_three_sources [1, 2] [3] [4, 5]
    [0, 1, 2, 0, 1, 2, 0, 2] (by decide)⟩
